import Mathlib

/-!
Verification of the `memoize-ts` repository (`src/src/memoize.ts`).

The development shallowly embeds the two components of the library:

* `compareValues` (src/src/memoize.ts lines 30-76), the recursive deep
  structural equality used as the default cache predicate.  JavaScript
  values are modelled by `JSVal`; object identity and cyclic object
  graphs are modelled by an explicit heap (`Heap`), a list of heap
  objects addressed by position, with `JSVal.ref` pointing into it.
  The recursion of the source has no termination guarantee (it has no
  cycle bookkeeping), so the embedding `compareValuesF` is fuel-indexed:
  `none` means the computation did not finish within the given call
  depth; `compareValuesF h fuel l r = none` for every `fuel` means the
  source diverges (stack overflow) on that input.

* `memoize` (src/src/memoize.ts lines 194-238): cache state is a list
  of `(key, value)` entries (`Cache`), newest first; `memoCall`,
  `clearEntry`, `clearAll` model the wrapped call and the two
  invalidation methods, parametric in the active comparison predicate
  (the supplied `comparisonFn`, else the default built from
  `compareValues`).
-/

/-- JavaScript numbers as used by the comparator: either `NaN` or an
integer value.  `NaN === NaN` is false, which is the one number the
`===` shortcut of `compareValues` misses. -/
inductive JSNum where
  | nan
  | int (i : Int)
deriving DecidableEq, Repr

/-- JavaScript values.  Primitives are immediate; arrays, plain objects,
`Map`s, `RegExp`s and `Date`s live in the heap and are denoted by their
address (`ref`), which models JS reference identity.  Functions are
compared by reference only, modelled by an identity number. -/
inductive JSVal where
  | undefined
  | null
  | bool (b : Bool)
  | num (n : JSNum)
  | str (s : String)
  | fn (id : Nat)
  | ref (a : Nat)
deriving DecidableEq, Repr

/-- Heap objects: arrays, plain objects (own enumerable string-keyed
properties in insertion order), `Map`s (entries in insertion order),
and `RegExp`/`Date` instances.  `RegExp` and `Date` instances carry
their internal data (source/flags, time value) but expose no own
enumerable properties, exactly as in JS. -/
inductive HeapObj where
  | arr (elems : List JSVal)
  | obj (fields : List (String × JSVal))
  | map (entries : List (JSVal × JSVal))
  | regexp (source flags : String)
  | date (time : Int)
deriving DecidableEq, Repr

abbrev Heap := List HeapObj

/-- The JS `typeof` operator restricted to the modelled values. -/
def jsTypeof : JSVal → String
  | .undefined => "undefined"
  | .null => "object"
  | .bool _ => "boolean"
  | .num _ => "number"
  | .str _ => "string"
  | .fn _ => "function"
  | .ref _ => "object"

/-- `===` on numbers: `NaN` is strictly equal to nothing, not even itself. -/
def numStrictEq : JSNum → JSNum → Bool
  | .int i, .int j => i == j
  | _, _ => false

/-- The JS strict-equality operator `===`: value equality on primitives,
reference (address) equality on objects, reference identity on functions. -/
def strictEq : JSVal → JSVal → Bool
  | .undefined, .undefined => true
  | .null, .null => true
  | .bool a, .bool b => a == b
  | .num a, .num b => numStrictEq a b
  | .str a, .str b => a == b
  | .fn a, .fn b => a == b
  | .ref a, .ref b => a == b
  | _, _ => false

/-- SameValueZero, the key-matching relation of JS `Map.get`: like `===`
except that `NaN` matches `NaN`. -/
def sameValueZero : JSVal → JSVal → Bool
  | .num .nan, .num .nan => true
  | a, b => strictEq a b

/-- `Array.isArray(v)` over the heap. -/
def arrOf (h : Heap) : JSVal → Option (List JSVal)
  | .ref a =>
    match h[a]? with
    | some (.arr es) => some es
    | _ => none
  | _ => none

/-- `v instanceof Map`, returning the entry list when it is one. -/
def mapOf (h : Heap) : JSVal → Option (List (JSVal × JSVal))
  | .ref a =>
    match h[a]? with
    | some (.map es) => some es
    | _ => none
  | _ => none

/-- `Object.keys(o)`: for an array the index strings `"0" .. "n-1"`, for
a plain object its field names in insertion order; `Map`, `RegExp` and
`Date` instances have no own enumerable properties. -/
def keysOfObj : HeapObj → List String
  | .arr elems => (List.range elems.length).map toString
  | .obj fields => fields.map Prod.fst
  | _ => []

/-- `Object.entries(o)`, consistent with `keysOfObj`. -/
def entriesOfObj : HeapObj → List (String × JSVal)
  | .arr elems => elems.enum.map (fun p => (toString p.1, p.2))
  | .obj fields => fields
  | _ => []

def keysOf (h : Heap) : JSVal → List String
  | .ref a =>
    match h[a]? with
    | some o => keysOfObj o
    | none => []
  | _ => []

def entriesOf (h : Heap) : JSVal → List (String × JSVal)
  | .ref a =>
    match h[a]? with
    | some o => entriesOfObj o
    | none => []
  | _ => []

/-- Property access `o[k]` for the string keys produced by
`Object.keys`; absent keys yield `undefined`. -/
def getPropObj (o : HeapObj) (k : String) : JSVal :=
  match (entriesOfObj o).find? (fun e => e.1 == k) with
  | some e => e.2
  | none => .undefined

def getProp (h : Heap) (v : JSVal) (k : String) : JSVal :=
  match v with
  | .ref a =>
    match h[a]? with
    | some o => getPropObj o k
    | none => .undefined
  | _ => .undefined

/-- `Map.prototype.get`: first entry whose key SameValueZero-matches,
`undefined` when absent. -/
def mapGet (entries : List (JSVal × JSVal)) (k : JSVal) : JSVal :=
  match entries.find? (fun e => sameValueZero e.1 k) with
  | some e => e.2
  | none => .undefined

/-- Lexicographic order on character lists by code point; on the keys
occurring here this coincides with the JS default sort order (UTF-16
code unit order). -/
def charListLe : List Char → List Char → Bool
  | [], _ => true
  | _ :: _, [] => false
  | c :: cs, d :: ds =>
    if c.val.toNat < d.val.toNat then true
    else if d.val.toNat < c.val.toNat then false
    else charListLe cs ds

def strLe (s t : String) : Bool := charListLe s.data t.data

/-- Insert a string into a sorted list. -/
def insertSorted (s : String) : List String → List String
  | [] => [s]
  | t :: ts => if strLe s t then s :: t :: ts else t :: insertSorted s ts

/-- `keys.sort()`. -/
def sortKeys (l : List String) : List String :=
  l.foldr insertSorted []

/-- Short-circuiting `Array.prototype.every` over an effectful-free
comparator that may run out of fuel. -/
def optEvery (f : α → Option Bool) : List α → Option Bool
  | [] => some true
  | x :: xs =>
    match f x with
    | some true => optEvery f xs
    | some false => some false
    | none => none

/-- The comparator `compareValues` of src/src/memoize.ts (lines 30-76),
fuel-indexed: each nested recursive `compareValues` call of the source
consumes one unit of fuel (one JS stack frame); `none` means the
computation did not complete within that depth.  Notes on the embedding:

* `left === right` is `strictEq`; `left === null || right === null` is
  the null test of the object branch.
* The source compares the sorted key arrays with a recursive
  `compareValues(leftKeys.sort(), rightKeys.sort())` call on two fresh
  string arrays; two fresh arrays are never `===` and their elements are
  strings, which `compareValues` compares by `===`, so that call is
  exactly equality of the sorted key lists (after the separate length
  check of the source).
* In the `Map` branch the key arrays `[...left.keys()]` are fresh
  arrays of arbitrary values, so they are compared by the genuine
  recursive array comparison; the values are then compared against
  `right.get(key)` (SameValueZero lookup). -/
def compareValuesF (h : Heap) : Nat → JSVal → JSVal → Option Bool
  | 0, _, _ => none
  | fuel + 1, left, right =>
    if strictEq left right then some true
    else if jsTypeof left != jsTypeof right then some false
    else
      let arrayCmp : List JSVal → List JSVal → Option Bool := fun ls rs =>
        if ls.length != rs.length then some false
        else optEvery (fun p => compareValuesF h fuel p.1 p.2) (ls.zip rs)
      match arrOf h left, arrOf h right with
      | some ls, some rs => arrayCmp ls rs
      | _, _ =>
        if jsTypeof left == "object" then
          if strictEq left .null || strictEq right .null then some false
          else
            match mapOf h left, mapOf h right with
            | some le, some re =>
              if le.length != re.length then some false
              else
                match arrayCmp (le.map Prod.fst) (re.map Prod.fst) with
                | none => none
                | some false => some false
                | some true =>
                  optEvery (fun p => compareValuesF h fuel p.2 (mapGet re p.1)) le
            | _, _ =>
              let lkeys := keysOf h left
              let rkeys := keysOf h right
              if lkeys.length != rkeys.length then some false
              else if sortKeys lkeys != sortKeys rkeys then some false
              else
                optEvery (fun p => compareValuesF h fuel p.2 (getProp h right p.1))
                  (entriesOf h left)
        else some false

example : compareValuesF [] 1 (.num (.int 3)) (.num (.int 3)) = some true := by decide
example : compareValuesF [] 1 (.num (.int 3)) (.num (.int 4)) = some false := by decide
example : compareValuesF [] 1 (.str "a") (.str "a") = some true := by decide
example : compareValuesF [] 1 .undefined .null = some false := by decide
example : compareValuesF [.arr [.num (.int 1), .num (.int 2)], .arr [.num (.int 1), .num (.int 2)]]
    3 (.ref 0) (.ref 1) = some true := by decide
example : compareValuesF [.arr [.num (.int 1), .num (.int 2)], .arr [.num (.int 1)]]
    3 (.ref 0) (.ref 1) = some false := by decide
example : compareValuesF
    [.obj [("x", .num (.int 1)), ("y", .num (.int 2))],
     .obj [("y", .num (.int 2)), ("x", .num (.int 1))]]
    3 (.ref 0) (.ref 1) = some true := by decide

/-! ### One-step unfolding of the comparator -/

/-- Unfolding equation of `compareValuesF` at positive fuel, used to
rewrite one recursion level at a time. -/
theorem compareValuesF_succ (h : Heap) (fuel : Nat) (left right : JSVal) :
    compareValuesF h (fuel + 1) left right =
      (if strictEq left right then some true
       else if jsTypeof left != jsTypeof right then some false
       else
        let arrayCmp : List JSVal → List JSVal → Option Bool := fun ls rs =>
          if ls.length != rs.length then some false
          else optEvery (fun p => compareValuesF h fuel p.1 p.2) (ls.zip rs)
        match arrOf h left, arrOf h right with
        | some ls, some rs => arrayCmp ls rs
        | _, _ =>
          if jsTypeof left == "object" then
            if strictEq left .null || strictEq right .null then some false
            else
              match mapOf h left, mapOf h right with
              | some le, some re =>
                if le.length != re.length then some false
                else
                  match arrayCmp (le.map Prod.fst) (re.map Prod.fst) with
                  | none => none
                  | some false => some false
                  | some true =>
                    optEvery (fun p => compareValuesF h fuel p.2 (mapGet re p.1)) le
              | _, _ =>
                let lkeys := keysOf h left
                let rkeys := keysOf h right
                if lkeys.length != rkeys.length then some false
                else if sortKeys lkeys != sortKeys rkeys then some false
                else
                  optEvery (fun p => compareValuesF h fuel p.2 (getProp h right p.1))
                    (entriesOf h left)
          else some false) := rfl

/-! ### Basic facts about strict equality and the comparator -/

/-- `x === x` holds for every value except the number `NaN`. -/
lemma strictEq_self (x : JSVal) (hx : x ≠ JSVal.num JSNum.nan) : strictEq x x = true := by
  cases x with
  | num n =>
    cases n with
    | nan => exact absurd rfl hx
    | int i => simp [strictEq, numStrictEq]
  | _ => simp [strictEq]

/-- Nothing is `===`-equal to `NaN`. -/
lemma strictEq_nan_right (x : JSVal) : strictEq x (JSVal.num JSNum.nan) = false := by
  cases x with
  | num n => cases n <;> rfl
  | _ => rfl

/-- The comparator at positive fuel is `true` on any diagonal other than
`NaN` (the `===` shortcut fires). -/
lemma compareValuesF_self (h : Heap) (fuel : Nat) (x : JSVal)
    (hx : x ≠ JSVal.num JSNum.nan) :
    compareValuesF h (fuel + 1) x x = some true := by
  rw [compareValuesF_succ]
  simp [strictEq_self x hx]

/-- At positive fuel the comparator declares any value different from
`NaN` (in particular `NaN` itself). -/
lemma compareValuesF_nan_right (h : Heap) (fuel : Nat) (x : JSVal) :
    compareValuesF h (fuel + 1) x (JSVal.num JSNum.nan) = some false := by
  rw [compareValuesF_succ]
  cases x with
  | num n =>
    cases n <;>
      simp [strictEq, numStrictEq, jsTypeof, arrOf, mapOf]
  | _ =>
    simp [strictEq_nan_right, jsTypeof, arrOf, mapOf, strictEq]

/-! ### The string order used by `keys.sort()` -/

lemma charListLe_total : ∀ xs ys : List Char,
    charListLe xs ys = false → charListLe ys xs = true := by
  intro xs
  induction xs with
  | nil => intro ys h; simp [charListLe] at h
  | cons x xs ih =>
    intro ys h
    cases ys with
    | nil => simp [charListLe]
    | cons y ys =>
      simp only [charListLe] at h ⊢
      by_cases hxy : x.val.toNat < y.val.toNat
      · simp [hxy] at h
      · by_cases hyx : y.val.toNat < x.val.toNat
        · simp [hyx]
        · simp [hxy, hyx] at h ⊢
          exact ih ys h

lemma charListLe_antisymm : ∀ xs ys : List Char,
    charListLe xs ys = true → charListLe ys xs = true → xs = ys := by
  intro xs
  induction xs with
  | nil =>
    intro ys _ h2
    cases ys with
    | nil => rfl
    | cons y ys => simp [charListLe] at h2
  | cons x xs ih =>
    intro ys h1 h2
    cases ys with
    | nil => simp [charListLe] at h1
    | cons y ys =>
      simp only [charListLe] at h1 h2
      by_cases hxy : x.val.toNat < y.val.toNat
      · simp [hxy, Nat.not_lt_of_lt hxy] at h2
      · by_cases hyx : y.val.toNat < x.val.toNat
        · simp [hxy, hyx] at h1
        · simp [hxy, hyx] at h1 h2
          have hval : x = y :=
            Char.ext (UInt32.toNat.inj (Nat.le_antisymm (Nat.le_of_not_lt hyx) (Nat.le_of_not_lt hxy)))
          rw [hval, ih ys h1 h2]

lemma strLe_total (s t : String) (h : strLe s t = false) : strLe t s = true :=
  charListLe_total s.data t.data h

lemma strLe_antisymm (s t : String) (h1 : strLe s t = true) (h2 : strLe t s = true) :
    s = t := by
  cases s with
  | mk sd =>
    cases t with
    | mk td =>
      have : sd = td := charListLe_antisymm sd td h1 h2
      rw [this]

/-- Sorting a two-element key list does not depend on the order of the
two keys. -/
lemma sortKeys_pair_comm (s t : String) (hne : s ≠ t) :
    sortKeys [s, t] = sortKeys [t, s] := by
  simp only [sortKeys, List.foldr, insertSorted]
  by_cases hst : strLe s t
  · have hts : strLe t s = false := by
      by_contra hyp
      exact hne (strLe_antisymm s t hst (Bool.of_not_eq_false hyp))
    simp [hst, hts, insertSorted]
  · have hts : strLe t s = true := strLe_total s t (Bool.of_not_eq_true hst)
    simp [hst, hts, insertSorted]

/-! ### The memoization cache (src/src/memoize.ts lines 194-238) -/

/-- One argument list of a call (`args`). -/
abbrev Args := List JSVal

/-- `MemoizeCacheType<T>`: the entry list, newest entry first. -/
abbrev Cache (T : Type) := List (Args × T)

/-- `findCacheIndex` followed by the access `cache[index]`: the first
cache entry whose key the active predicate matches against `args`
(`cache.findIndex(({key}) => (comparisonFn ?? compareValues)(key, cacheEntry))`);
`none` models the index `-1`. -/
def findCacheEntry {T : Type} (pred : Args → Args → Bool) (cache : Cache T)
    (args : Args) : Option (Args × T) :=
  cache.find? (fun e => pred e.1 args)

/-- One invocation of the memoized function (the body of `memoizedFn`):
on a hit return the stored value and leave the cache alone; on a miss
invoke `fn`, `unshift` the new `{key: args, value}` entry, and return
the value.  The third component counts how many times `fn` was invoked
during this call (0 on a hit, 1 on a miss). -/
def memoCall {T : Type} (pred : Args → Args → Bool) (fn : Args → T)
    (cache : Cache T) (args : Args) : T × Cache T × Nat :=
  match findCacheEntry pred cache args with
  | some e => (e.2, cache, 0)
  | none =>
    let value := fn args
    (value, (args, value) :: cache, 1)

/-- `memoizedFn` when the wrapped function may throw, embedded in
`Except`: `value = fn(...args)` either produces a value, after which the
entry is unshifted, or raises, in which case the `unshift` is never
executed and the exception propagates. -/
def memoCallE {T E : Type} (pred : Args → Args → Bool) (fn : Args → Except E T)
    (cache : Cache T) (args : Args) : Except E T × Cache T :=
  match findCacheEntry pred cache args with
  | some e => (Except.ok e.2, cache)
  | none =>
    match fn args with
    | Except.ok value => (Except.ok value, (args, value) :: cache)
    | Except.error err => (Except.error err, cache)

/-- `memoizedFn.clearEntry`: the same `findCacheIndex` lookup as a call;
on a hit `cache.splice(index, 1)` removes the matched entry, on a miss
nothing happens. -/
def clearEntry {T : Type} (pred : Args → Args → Bool) (cache : Cache T)
    (args : Args) : Cache T :=
  match cache.findIdx? (fun e => pred e.1 args) with
  | some i => cache.eraseIdx i
  | none => cache

/-- `memoizedFn.clearAll`: `cache.length = 0`. -/
def clearAll {T : Type} (_cache : Cache T) : Cache T := []

/-- The operations a client can perform on one memoized-function
instance. -/
inductive MemoOp where
  | call (args : Args)
  | clearEntryOp (args : Args)
  | clearAllOp

def applyOp {T : Type} (pred : Args → Args → Bool) (fn : Args → T)
    (cache : Cache T) : MemoOp → Cache T
  | .call args => (memoCall pred fn cache args).2.1
  | .clearEntryOp args => clearEntry pred cache args
  | .clearAllOp => clearAll cache

/-- The cache after a sequence of operations on a fresh instance
(the cache starts out as `[]`). -/
def runOps {T : Type} (pred : Args → Args → Bool) (fn : Args → T)
    (ops : List MemoOp) : Cache T :=
  ops.foldl (applyOp pred fn) []

/-- The default hit test of `findCacheIndex`: `compareValues(key, args)`
applied to the two full argument arrays.  The two arrays are freshly
built objects, hence never `===`, and both are arrays of equal JS type,
so the comparison is exactly the array branch of `compareValues`: equal
lengths and element-wise recursive comparison. -/
def compareArgsF (h : Heap) (fuel : Nat) (la ra : Args) : Option Bool :=
  if la.length != ra.length then some false
  else optEvery (fun p => compareValuesF h fuel p.1 p.2) (la.zip ra)

/-- The default predicate as a boolean; the theorems below use it only
on argument lists where the comparison provably completes within the
given fuel, so the `getD` default is never exercised there. -/
def defaultComparison (h : Heap) (fuel : Nat) (la ra : Args) : Bool :=
  (compareArgsF h fuel la ra).getD false

example :
    memoCall (fun a b => a == b) (fun _ => (7 : Nat)) [] [JSVal.num (.int 1)] =
      (7, [([JSVal.num (.int 1)], 7)], 1) := by decide
example :
    memoCall (fun a b => a == b) (fun _ => (7 : Nat))
      [([JSVal.num (.int 1)], 9)] [JSVal.num (.int 1)] =
      (9, [([JSVal.num (.int 1)], 9)], 0) := by decide
example :
    clearEntry (fun a b => a == b) [([JSVal.num (.int 1)], (9 : Nat))]
      [JSVal.num (.int 1)] = [] := by decide

/-! ### Cache invariant: keys are pairwise non-equivalent -/

/-- No two cache entries have keys the active predicate identifies. -/
def KeysSeparated {T : Type} (pred : Args → Args → Bool) (cache : Cache T) : Prop :=
  cache.Pairwise (fun a b => pred a.1 b.1 = false)

lemma keysSeparated_nil {T : Type} (pred : Args → Args → Bool) :
    KeysSeparated pred ([] : Cache T) := List.Pairwise.nil

lemma keysSeparated_memoCall {T : Type} (pred : Args → Args → Bool) (fn : Args → T)
    (cache : Cache T) (args : Args)
    (hsymm : ∀ a b, pred a b = pred b a)
    (h : KeysSeparated pred cache) :
    KeysSeparated pred (memoCall pred fn cache args).2.1 := by
  unfold memoCall
  cases hfind : findCacheEntry pred cache args with
  | some e => exact h
  | none =>
    have hall : ∀ e ∈ cache, ¬ pred e.1 args = true := by
      simpa [findCacheEntry] using hfind
    refine List.Pairwise.cons ?_ h
    intro b hb
    rw [hsymm args b.1]
    exact Bool.eq_false_iff.mpr (hall b hb)

lemma keysSeparated_clearEntry {T : Type} (pred : Args → Args → Bool)
    (cache : Cache T) (args : Args) (h : KeysSeparated pred cache) :
    KeysSeparated pred (clearEntry pred cache args) := by
  unfold clearEntry
  cases cache.findIdx? (fun e => pred e.1 args) with
  | some i => exact List.Pairwise.sublist (List.eraseIdx_sublist cache i) h
  | none => exact h

lemma keysSeparated_applyOp {T : Type} (pred : Args → Args → Bool) (fn : Args → T)
    (cache : Cache T) (op : MemoOp)
    (hsymm : ∀ a b, pred a b = pred b a)
    (h : KeysSeparated pred cache) :
    KeysSeparated pred (applyOp pred fn cache op) := by
  cases op with
  | call args => exact keysSeparated_memoCall pred fn cache args hsymm h
  | clearEntryOp args => exact keysSeparated_clearEntry pred cache args h
  | clearAllOp => exact keysSeparated_nil pred

/-- Every state reachable by a sequence of operations on a fresh
instance has pairwise non-equivalent keys. -/
lemma keysSeparated_runOps {T : Type} (pred : Args → Args → Bool) (fn : Args → T)
    (ops : List MemoOp) (hsymm : ∀ a b, pred a b = pred b a) :
    KeysSeparated pred (runOps pred fn ops) := by
  have main : ∀ (l : List MemoOp) (c : Cache T), KeysSeparated pred c →
      KeysSeparated pred (l.foldl (applyOp pred fn) c) := by
    intro l
    induction l with
    | nil => intro c hc; exact hc
    | cons op l ih =>
      intro c hc
      exact ih _ (keysSeparated_applyOp pred fn c op hsymm hc)
  exact main ops [] (keysSeparated_nil pred)

/-- Pairwise-separated keys admit at most one match for any query,
provided the predicate is symmetric and transitive. -/
lemma countP_le_one_of_keysSeparated {T : Type} (pred : Args → Args → Bool)
    (cache : Cache T) (q : Args)
    (hsymm : ∀ a b, pred a b = pred b a)
    (htrans : ∀ a b c, pred a b = true → pred b c = true → pred a c = true)
    (h : KeysSeparated pred cache) :
    cache.countP (fun e => pred e.1 q) ≤ 1 := by
  induction cache with
  | nil => simp
  | cons x xs ih =>
    have hx_tail := List.Pairwise.of_cons h
    have hx_head : ∀ b ∈ xs, pred x.1 b.1 = false :=
      fun b hb => List.rel_of_pairwise_cons h hb
    by_cases hx : pred x.1 q = true
    · have hzero : xs.countP (fun e => pred e.1 q) = 0 := by
        rw [List.countP_eq_zero]
        intro e he
        intro habs
        have h1 : pred q e.1 = true := by rw [hsymm]; exact habs
        have h2 : pred x.1 e.1 = true := htrans x.1 q e.1 hx h1
        rw [hx_head e he] at h2
        exact Bool.false_ne_true h2
      rw [List.countP_cons, hzero]
      simp [hx]
    · rw [List.countP_cons]
      simp only [hx]
      simpa using ih hx_tail

/-! ### Decomposition facts for the lookup and for `clearEntry` -/

lemma findScan_decomp {α : Type} (p : α → Bool) :
    ∀ (l : List α) (e : α), l.find? p = some e →
      ∃ l1 l2, l = l1 ++ e :: l2 ∧ (∀ x ∈ l1, p x = false) := by
  intro l
  induction l with
  | nil => intro e h; simp at h
  | cons x xs ih =>
    intro e h
    rw [List.find?_cons] at h
    by_cases hp : p x
    · simp [hp] at h
      exact ⟨[], xs, by simp [h], by simp⟩
    · simp [hp] at h
      obtain ⟨l1, l2, hl, hnone⟩ := ih e h
      refine ⟨x :: l1, l2, by simp [hl], ?_⟩
      intro y hy
      rcases List.mem_cons.mp hy with hyx | hyl
      · rw [hyx]; exact Bool.eq_false_iff.mpr hp
      · exact hnone y hyl

lemma findIdxOf_decomp {α : Type} (p : α → Bool) :
    ∀ (l1 : List α) (e : α) (l2 : List α), (∀ x ∈ l1, p x = false) → p e = true →
      (l1 ++ e :: l2).findIdx? p = some l1.length := by
  intro l1
  induction l1 with
  | nil =>
    intro e l2 _ he
    simp [List.findIdx?_cons, he]
  | cons x l1 ih =>
    intro e l2 hnone he
    have hx : p x = false := hnone x (by simp)
    have := ih e l2 (fun y hy => hnone y (by simp [hy])) he
    simp [List.findIdx?_cons, hx, this]

lemma eraseIdx_decomp {α : Type} :
    ∀ (l1 : List α) (e : α) (l2 : List α),
      (l1 ++ e :: l2).eraseIdx l1.length = l1 ++ l2 := by
  intro l1
  induction l1 with
  | nil => intro e l2; simp [List.eraseIdx]
  | cons x l1 ih => intro e l2; simp [List.eraseIdx, ih]

/-- `clearEntry` on a decomposed hit removes exactly the first matching
entry. -/
lemma clearEntry_of_decomp {T : Type} (pred : Args → Args → Bool)
    (l1 : Cache T) (e : Args × T) (l2 : Cache T) (args : Args)
    (hnone : ∀ x ∈ l1, pred x.1 args = false) (he : pred e.1 args = true) :
    clearEntry pred (l1 ++ e :: l2) args = l1 ++ l2 := by
  unfold clearEntry
  rw [findIdxOf_decomp (fun x => pred x.1 args) l1 e l2 hnone he]
  exact eraseIdx_decomp l1 e l2

/-- After `clearEntry args` on a cache with pairwise separated keys, no
remaining entry matches `args`. -/
lemma clearEntry_no_match {T : Type} (pred : Args → Args → Bool)
    (cache : Cache T) (args : Args)
    (hsymm : ∀ a b, pred a b = pred b a)
    (htrans : ∀ a b c, pred a b = true → pred b c = true → pred a c = true)
    (hsep : KeysSeparated pred cache) :
    ∀ e ∈ clearEntry pred cache args, pred e.1 args = false := by
  cases hfind : findCacheEntry pred cache args with
  | none =>
    have hall : ∀ e ∈ cache, ¬ pred e.1 args = true := by
      simpa [findCacheEntry] using hfind
    have : clearEntry pred cache args = cache := by
      unfold clearEntry
      have : cache.findIdx? (fun e => pred e.1 args) = none := by
        rw [List.findIdx?_eq_none_iff]
        intro x hx
        exact Bool.eq_false_iff.mpr (hall x hx)
      rw [this]
    rw [this]
    intro e he
    exact Bool.eq_false_iff.mpr (hall e he)
  | some e0 =>
    have hfind' : List.find? (fun e : Args × T => pred e.1 args) cache = some e0 := hfind
    obtain ⟨l1, l2, hl, hnone⟩ := findScan_decomp (fun e => pred e.1 args) cache e0 hfind'
    have he0 : pred e0.1 args = true := by
      have h := List.find?_some hfind'
      simpa using h
    rw [hl, clearEntry_of_decomp pred l1 e0 l2 args hnone he0]
    intro e he
    rcases List.mem_append.mp he with hmem1 | hmem2
    · exact hnone e hmem1
    · by_contra habs
      have hmatch : pred e.1 args = true := Bool.of_not_eq_false habs
      have hqe : pred args e.1 = true := by rw [hsymm]; exact hmatch
      have h0e : pred e0.1 e.1 = true := htrans e0.1 args e.1 he0 hqe
      have hsep2 : List.Pairwise (fun a b => pred a.1 b.1 = false) (l1 ++ e0 :: l2) := by
        rw [hl] at hsep; exact hsep
      have hcons := (List.pairwise_append.mp hsep2).2.1
      have h0e' : pred e0.1 e.1 = false := List.rel_of_pairwise_cons hcons hmem2
      rw [h0e'] at h0e
      exact Bool.false_ne_true h0e

/-! ### Cyclic object graphs -/

/-- Two independently built circular singly linked 3-node lists with
equal values and equal link topology, the scenario of the repository's
own test suite (`ListNode` with fields `value`, `previous`; the head of
each list points back to its tail).  Addresses 0-2 hold the first list
(node 2 is its entry point `m3`), addresses 3-5 the second (`n3`). -/
def cyclicPairHeap : Heap :=
  [.obj [("value", .num (.int 1)), ("previous", .ref 2)],
   .obj [("value", .num (.int 2)), ("previous", .ref 0)],
   .obj [("value", .num (.int 3)), ("previous", .ref 1)],
   .obj [("value", .num (.int 1)), ("previous", .ref 5)],
   .obj [("value", .num (.int 2)), ("previous", .ref 3)],
   .obj [("value", .num (.int 3)), ("previous", .ref 4)]]

/-- Comparing two distinct list nodes with equal values reduces, after
two fuel units, to comparing their `previous` pointers: the comparator
has no cycle bookkeeping, so nothing else can stop the recursion. -/
lemma node_compare (k li ri lp rp : Nat) (v : Int)
    (hl : cyclicPairHeap[li]? =
      some (HeapObj.obj [("value", .num (.int v)), ("previous", .ref lp)]))
    (hr : cyclicPairHeap[ri]? =
      some (HeapObj.obj [("value", .num (.int v)), ("previous", .ref rp)]))
    (hne : (li == ri) = false) :
    compareValuesF cyclicPairHeap (k + 2) (.ref li) (.ref ri) =
      compareValuesF cyclicPairHeap (k + 1) (.ref lp) (.ref rp) := by
  have hval : compareValuesF cyclicPairHeap (k + 1) (.num (.int v)) (.num (.int v)) =
      some true :=
    compareValuesF_self cyclicPairHeap k _ (by simp)
  cases hres : compareValuesF cyclicPairHeap (k + 1) (.ref lp) (.ref rp) with
  | none =>
    rw [compareValuesF_succ]
    simp [strictEq, hne, jsTypeof, arrOf, mapOf, keysOf, keysOfObj, entriesOf,
          entriesOfObj, getProp, getPropObj, optEvery, hl, hr, hval, hres, List.find?]
  | some b =>
    cases b <;>
    · rw [compareValuesF_succ]
      simp [strictEq, hne, jsTypeof, arrOf, mapOf, keysOf, keysOfObj, entriesOf,
            entriesOfObj, getProp, getPropObj, optEvery, hl, hr, hval, hres, List.find?]

/-- For every fuel bound, comparing corresponding nodes of the two
cyclic lists runs out of fuel. -/
lemma cyclic_compare_none (fuel : Nat) :
    compareValuesF cyclicPairHeap fuel (.ref 2) (.ref 5) = none ∧
    compareValuesF cyclicPairHeap fuel (.ref 1) (.ref 4) = none ∧
    compareValuesF cyclicPairHeap fuel (.ref 0) (.ref 3) = none := by
  induction fuel with
  | zero => exact ⟨rfl, rfl, rfl⟩
  | succ k ih =>
    cases k with
    | zero => exact ⟨by decide, by decide, by decide⟩
    | succ j =>
      obtain ⟨ih1, ih2, ih3⟩ := ih
      refine ⟨?_, ?_, ?_⟩
      · rw [node_compare j 2 5 1 4 3 (by decide) (by decide) (by decide)]
        exact ih2
      · rw [node_compare j 1 4 0 3 2 (by decide) (by decide) (by decide)]
        exact ih3
      · rw [node_compare j 0 3 2 5 1 (by decide) (by decide) (by decide)]
        exact ih1

/-- Two different strings compare false at any positive fuel. -/
lemma compareValuesF_str_ne (h : Heap) (fuel : Nat) (s t : String) (hne : s ≠ t) :
    compareValuesF h (fuel + 1) (.str s) (.str t) = some false := by
  rw [compareValuesF_succ]
  simp [strictEq, jsTypeof, arrOf, hne]

/-! ### The claims -/

/-- C1: the claim states that `equals` terminates (returns a boolean) on
every pair of inputs, including values containing self-referential
cycles, with structurally identical cycles comparing equal.  The code
violates this (code_bug): comparing the entry nodes of the two
structurally identical cyclic 3-node lists of the repository's own test
data (`cyclicPairHeap`) exhausts every fuel bound, i.e. the source
recursion never returns and the call stack overflows, where the claim
(and the repository's test suite) require the answer `true`. -/
theorem C1_equals_cyclic_diverges (fuel : Nat) :
    compareValuesF cyclicPairHeap fuel (JSVal.ref 2) (JSVal.ref 5) = none :=
  (cyclic_compare_none fuel).1

/-- C3 counterexample: the claim says `equals(x, x)` is true for every
value `x`, but `equals(NaN, NaN)` evaluates to `false`: the `===`
shortcut misses (`NaN === NaN` is false), the types agree, neither value
is an array or object, so the comparator falls through to `false`. -/
theorem C3_nan_not_reflexive :
    compareValuesF [] 1 (JSVal.num JSNum.nan) (JSVal.num JSNum.nan) = some false := by
  decide

/-- C3 (amended): `equals(x, x)` is true for every value `x` other than
the number `NaN`, including self-referential structures, at any positive
call depth—the `===` identity shortcut fires immediately. -/
theorem C3_equals_refl (h : Heap) (fuel : Nat) (x : JSVal)
    (hx : x ≠ JSVal.num JSNum.nan) :
    compareValuesF h (fuel + 1) x x = some true :=
  compareValuesF_self h fuel x hx

theorem C3_equals_refl_witness :
    compareValuesF cyclicPairHeap 1 (JSVal.ref 2) (JSVal.ref 2) = some true :=
  C3_equals_refl cyclicPairHeap 0 (JSVal.ref 2) (by decide)

/-- C6: the claim says pattern-matchers compare equal iff they have the
same source and flags, and timestamps iff they denote the same instant.
The code violates this (code_bug): a `RegExp` or `Date` instance has no
own enumerable properties, so any two such instances fall into the
plain-record branch with two empty key lists and compare `true`—here
`/abc/` vs `/abcd/` and two dates a year apart, where the claim (and the
repository's test suite) require `false`. -/
theorem C6_regexp_date_compare_true :
    compareValuesF [HeapObj.regexp "abc" "", HeapObj.regexp "abcd" ""] 5
        (JSVal.ref 0) (JSVal.ref 1) = some true ∧
    compareValuesF [HeapObj.date 1706745600000, HeapObj.date 1735689600000] 5
        (JSVal.ref 0) (JSVal.ref 1) = some true :=
  ⟨by decide, by decide⟩

/-- C5 counterexample: the claim says a sequence and a keyed map (and a
keyed map and a plain record) never compare equal, but the code returns
`true` for an empty array vs a non-empty `Map`, and for a non-empty
`Map` vs an empty record: a `Map` exposes no own enumerable keys, so
both sides of the record branch have empty key lists. -/
theorem C5_empty_vs_map_counterexample :
    compareValuesF [HeapObj.arr [], HeapObj.map [(JSVal.str "x", JSVal.num (JSNum.int 1))]] 5
        (JSVal.ref 0) (JSVal.ref 1) = some true ∧
    compareValuesF [HeapObj.map [(JSVal.str "x", JSVal.num (JSNum.int 1))], HeapObj.obj []] 5
        (JSVal.ref 0) (JSVal.ref 1) = some true :=
  ⟨by decide, by decide⟩

/-- C5 (amended): an array vs a `Map`, and a plain record vs a `Map`,
compare `false` whenever the non-`Map` side has at least one element or
key (in either argument order); only when the array/record side has no
keys at all does the comparison degenerate to `true`. -/
theorem C5_cross_kind_false (h : Heap) (fuel : Nat) :
    (∀ (la ra : Nat) (elems : List JSVal) (es : List (JSVal × JSVal)),
        h[la]? = some (HeapObj.arr elems) → h[ra]? = some (HeapObj.map es) →
        elems ≠ [] →
        compareValuesF h (fuel + 1) (JSVal.ref la) (JSVal.ref ra) = some false ∧
        compareValuesF h (fuel + 1) (JSVal.ref ra) (JSVal.ref la) = some false) ∧
    (∀ (oa ra : Nat) (fields : List (String × JSVal)) (es : List (JSVal × JSVal)),
        h[oa]? = some (HeapObj.obj fields) → h[ra]? = some (HeapObj.map es) →
        fields ≠ [] →
        compareValuesF h (fuel + 1) (JSVal.ref oa) (JSVal.ref ra) = some false ∧
        compareValuesF h (fuel + 1) (JSVal.ref ra) (JSVal.ref oa) = some false) := by
  constructor
  · intro la ra elems es hl hr hne
    have hlr : la ≠ ra := by
      intro e
      rw [e, hr] at hl
      simp at hl
    have hbeq : (la == ra) = false := beq_eq_false_iff_ne.mpr hlr
    have hbeq2 : (ra == la) = false := beq_eq_false_iff_ne.mpr (Ne.symm hlr)
    have hlen : elems.length ≠ 0 := by simpa using hne
    have hlen2 : (0 : Nat) ≠ elems.length := Ne.symm hlen
    constructor <;>
    · rw [compareValuesF_succ]
      simp [strictEq, jsTypeof, arrOf, mapOf, keysOf, keysOfObj,
            hl, hr, hbeq, hbeq2, hlen, hlen2]
  · intro oa ra fields es hl hr hne
    have hlr : oa ≠ ra := by
      intro e
      rw [e, hr] at hl
      simp at hl
    have hbeq : (oa == ra) = false := beq_eq_false_iff_ne.mpr hlr
    have hbeq2 : (ra == oa) = false := beq_eq_false_iff_ne.mpr (Ne.symm hlr)
    have hlen : fields.length ≠ 0 := by simpa using hne
    have hlen2 : (0 : Nat) ≠ fields.length := Ne.symm hlen
    constructor <;>
    · rw [compareValuesF_succ]
      simp [strictEq, jsTypeof, arrOf, mapOf, keysOf, keysOfObj,
            hl, hr, hbeq, hbeq2, hlen, hlen2]

theorem C5_cross_kind_false_witness :
    compareValuesF [HeapObj.arr [JSVal.num (JSNum.int 1)],
        HeapObj.map [(JSVal.str "x", JSVal.num (JSNum.int 1))],
        HeapObj.obj [("x", JSVal.num (JSNum.int 1))]] 5
      (JSVal.ref 0) (JSVal.ref 1) = some false ∧
    compareValuesF [HeapObj.arr [JSVal.num (JSNum.int 1)],
        HeapObj.map [(JSVal.str "x", JSVal.num (JSNum.int 1))],
        HeapObj.obj [("x", JSVal.num (JSNum.int 1))]] 5
      (JSVal.ref 1) (JSVal.ref 2) = some false :=
  ⟨((C5_cross_kind_false _ 4).1 0 1 _ _ rfl rfl (by decide)).1,
   ((C5_cross_kind_false _ 4).2 2 1 _ _ rfl rfl (by decide)).2⟩

/-- C9: key-order sensitivity differs by kind.  For two `Map`s holding
the same two key/value pairs under distinct string keys, swapping the
order of the pairs makes the comparison `false` (the key arrays are
compared in iteration order); for two plain records holding the same two
pairs, swapping the order preserves equality (the key lists are sorted
before comparison and the values are looked up by key).  Instantiated at
`{x: 1, y: 2}` vs `{y: 2, x: 1}` this is the claim's concrete example. -/
theorem C9_key_order (s1 s2 : String) (v1 v2 : Int) (hne : s1 ≠ s2) :
    compareValuesF
        [HeapObj.map [(JSVal.str s1, JSVal.num (JSNum.int v1)),
                      (JSVal.str s2, JSVal.num (JSNum.int v2))],
         HeapObj.map [(JSVal.str s2, JSVal.num (JSNum.int v2)),
                      (JSVal.str s1, JSVal.num (JSNum.int v1))]] 3
        (JSVal.ref 0) (JSVal.ref 1) = some false ∧
    compareValuesF
        [HeapObj.obj [(s1, JSVal.num (JSNum.int v1)), (s2, JSVal.num (JSNum.int v2))],
         HeapObj.obj [(s2, JSVal.num (JSNum.int v2)), (s1, JSVal.num (JSNum.int v1))]] 3
        (JSVal.ref 0) (JSVal.ref 1) = some true := by
  have h12 : (s1 == s2) = false := beq_eq_false_iff_ne.mpr hne
  have h21 : (s2 == s1) = false := beq_eq_false_iff_ne.mpr (Ne.symm hne)
  constructor
  · have hstr : compareValuesF
        [HeapObj.map [(JSVal.str s1, JSVal.num (JSNum.int v1)),
                      (JSVal.str s2, JSVal.num (JSNum.int v2))],
         HeapObj.map [(JSVal.str s2, JSVal.num (JSNum.int v2)),
                      (JSVal.str s1, JSVal.num (JSNum.int v1))]] 2
        (JSVal.str s1) (JSVal.str s2) = some false :=
      compareValuesF_str_ne _ 1 s1 s2 hne
    rw [compareValuesF_succ]
    simp [strictEq, jsTypeof, arrOf, mapOf, optEvery, hstr]
  · have hd1 : compareValuesF
        [HeapObj.obj [(s1, JSVal.num (JSNum.int v1)), (s2, JSVal.num (JSNum.int v2))],
         HeapObj.obj [(s2, JSVal.num (JSNum.int v2)), (s1, JSVal.num (JSNum.int v1))]] 2
        (JSVal.num (JSNum.int v1)) (JSVal.num (JSNum.int v1)) = some true :=
      compareValuesF_self _ 1 _ (by simp)
    have hd2 : compareValuesF
        [HeapObj.obj [(s1, JSVal.num (JSNum.int v1)), (s2, JSVal.num (JSNum.int v2))],
         HeapObj.obj [(s2, JSVal.num (JSNum.int v2)), (s1, JSVal.num (JSNum.int v1))]] 2
        (JSVal.num (JSNum.int v2)) (JSVal.num (JSNum.int v2)) = some true :=
      compareValuesF_self _ 1 _ (by simp)
    rw [compareValuesF_succ]
    simp [strictEq, jsTypeof, arrOf, mapOf, keysOf, keysOfObj, entriesOf, entriesOfObj,
          getProp, getPropObj, optEvery, List.find?, sortKeys_pair_comm s1 s2 hne,
          h12, h21, hd1, hd2]

theorem C9_key_order_witness :
    compareValuesF
        [HeapObj.map [(JSVal.str "x", JSVal.num (JSNum.int 1)),
                      (JSVal.str "y", JSVal.num (JSNum.int 2))],
         HeapObj.map [(JSVal.str "y", JSVal.num (JSNum.int 2)),
                      (JSVal.str "x", JSVal.num (JSNum.int 1))]] 3
        (JSVal.ref 0) (JSVal.ref 1) = some false ∧
    compareValuesF
        [HeapObj.obj [("x", JSVal.num (JSNum.int 1)), ("y", JSVal.num (JSNum.int 2))],
         HeapObj.obj [("y", JSVal.num (JSNum.int 2)), ("x", JSVal.num (JSNum.int 1))]] 3
        (JSVal.ref 0) (JSVal.ref 1) = some true :=
  C9_key_order "x" "y" 1 2 (by decide)

/-- C2: for any call on a memoized instance, under the active predicate
(the supplied `comparisonFn`, else the default `compareValues`-based
test): if some cache entry's key matches the argument list, the call
returns the first such entry's stored value, leaves the cache unchanged
and does not invoke `fn` (invocation count 0); if no entry matches, the
call invokes `fn` exactly once, prepends the entry `(args, fn args)` to
the cache and returns `fn args`. -/
theorem C2_memoCall_hit_miss {T : Type} (pred : Args → Args → Bool) (fn : Args → T)
    (cache : Cache T) (args : Args) :
    ((∃ e ∈ cache, pred e.1 args = true) →
      ∃ e, findCacheEntry pred cache args = some e ∧ e ∈ cache ∧
        pred e.1 args = true ∧ memoCall pred fn cache args = (e.2, cache, 0)) ∧
    ((∀ e ∈ cache, pred e.1 args = false) →
      memoCall pred fn cache args = (fn args, (args, fn args) :: cache, 1)) := by
  constructor
  · intro hex
    have hsome : (cache.find? (fun e => pred e.1 args)).isSome := by
      rw [List.find?_isSome]
      obtain ⟨e, he, hp⟩ := hex
      exact ⟨e, he, by simpa using hp⟩
    obtain ⟨e, hfind⟩ := Option.isSome_iff_exists.mp hsome
    have hp : pred e.1 args = true := by
      have h := List.find?_some hfind
      simpa using h
    refine ⟨e, hfind, List.mem_of_find?_eq_some hfind, hp, ?_⟩
    unfold memoCall findCacheEntry
    rw [hfind]
  · intro hall
    have hnone : cache.find? (fun e : Args × T => pred e.1 args) = none := by
      rw [List.find?_eq_none]
      intro x hx
      simp [hall x hx]
    unfold memoCall findCacheEntry
    rw [hnone]

theorem C2_memoCall_hit_miss_witness :
    memoCall (fun a b => a == b) (fun _ => (7 : Nat))
        [([JSVal.num (JSNum.int 1)], 9)] [JSVal.num (JSNum.int 1)] =
      (9, [([JSVal.num (JSNum.int 1)], 9)], 0) ∧
    memoCall (fun a b => a == b) (fun _ => (7 : Nat))
        [([JSVal.num (JSNum.int 1)], 9)] [JSVal.num (JSNum.int 2)] =
      (7, ([JSVal.num (JSNum.int 2)], 7) :: [([JSVal.num (JSNum.int 1)], 9)], 1) := by
  constructor
  · obtain ⟨e, hfind, hmem, hp, heq⟩ :=
      (C2_memoCall_hit_miss (fun a b => a == b) (fun _ => (7 : Nat))
          [([JSVal.num (JSNum.int 1)], 9)] [JSVal.num (JSNum.int 1)]).1
        ⟨([JSVal.num (JSNum.int 1)], 9), by simp, by decide⟩
    have he : e = ([JSVal.num (JSNum.int 1)], 9) := by simpa using hmem
    rw [he] at heq
    exact heq
  · refine (C2_memoCall_hit_miss (fun a b => a == b) (fun _ => (7 : Nat))
        [([JSVal.num (JSNum.int 1)], 9)] [JSVal.num (JSNum.int 2)]).2 ?_
    intro e he
    rw [List.mem_singleton] at he
    subst he
    decide

/-- C4: if the wrapped function raises on a cache miss, the error
propagates unchanged to the caller of the memoized function and the
cache is exactly what it was before the call—no entry is recorded for
that argument list. -/
theorem C4_error_atomicity {T E : Type} (pred : Args → Args → Bool)
    (fn : Args → Except E T) (cache : Cache T) (args : Args) (err : E)
    (hmiss : ∀ e ∈ cache, pred e.1 args = false)
    (herr : fn args = Except.error err) :
    memoCallE pred fn cache args = (Except.error err, cache) := by
  have hnone : findCacheEntry pred cache args = none := by
    unfold findCacheEntry
    rw [List.find?_eq_none]
    intro x hx
    simp [hmiss x hx]
  unfold memoCallE
  rw [hnone, herr]

theorem C4_error_atomicity_witness :
    memoCallE (fun a b => a == b)
      (fun _ => (Except.error "boom" : Except String Nat))
      [] [JSVal.num (JSNum.int 1)] = (Except.error "boom", []) :=
  C4_error_atomicity (fun a b => a == b) _ [] [JSVal.num (JSNum.int 1)] "boom"
    (by intro e he; simp at he) rfl

/-- C7: after any sequence of `call`, `clearEntry` and `clearAll`
operations on one fresh memoized instance, at most one cache entry
matches any given argument list under the active predicate, provided the
predicate is symmetric and transitive (an equivalence on the keys in
play). -/
theorem C7_at_most_one_match {T : Type} (pred : Args → Args → Bool) (fn : Args → T)
    (hsymm : ∀ a b, pred a b = pred b a)
    (htrans : ∀ a b c, pred a b = true → pred b c = true → pred a c = true)
    (ops : List MemoOp) (q : Args) :
    (runOps pred fn ops).countP (fun e => pred e.1 q) ≤ 1 :=
  countP_le_one_of_keysSeparated pred (runOps pred fn ops) q hsymm htrans
    (keysSeparated_runOps pred fn ops hsymm)

theorem C7_at_most_one_match_witness :
    (runOps (fun _ _ => true) (fun _ => (0 : Nat))
        [MemoOp.call [JSVal.num (JSNum.int 1)],
         MemoOp.call [JSVal.num (JSNum.int 2)]]).countP
      (fun e => (fun (_ _ : Args) => true) e.1 [JSVal.num (JSNum.int 3)]) ≤ 1 :=
  C7_at_most_one_match (fun _ _ => true) (fun _ => (0 : Nat))
    (fun _ _ => rfl) (fun _ _ _ _ _ => rfl)
    [MemoOp.call [JSVal.num (JSNum.int 1)], MemoOp.call [JSVal.num (JSNum.int 2)]]
    [JSVal.num (JSNum.int 3)]

/-- C8: `clearEntry` performs the same lookup as a call (the shared
`findCacheIndex`): it is a no-op when no entry matches; on a hit it
removes exactly the first matching entry; after `clearEntry(args)` on
any reachable cache the next call with an equivalent argument list
re-invokes `fn` exactly once (invocation count 1); and `clearAll`
empties the cache, after which every call re-invokes `fn`. -/
theorem C8_invalidation {T : Type} (pred : Args → Args → Bool) (fn : Args → T)
    (hsymm : ∀ a b, pred a b = pred b a)
    (htrans : ∀ a b c, pred a b = true → pred b c = true → pred a c = true) :
    (∀ (cache : Cache T) (args : Args), (∀ e ∈ cache, pred e.1 args = false) →
        clearEntry pred cache args = cache) ∧
    (∀ (cache : Cache T) (args : Args) (e : Args × T),
        findCacheEntry pred cache args = some e →
        ∃ l1 l2, cache = l1 ++ e :: l2 ∧ (∀ x ∈ l1, pred x.1 args = false) ∧
          pred e.1 args = true ∧ clearEntry pred cache args = l1 ++ l2) ∧
    (∀ (ops : List MemoOp) (args args2 : Args), pred args args2 = true →
        (memoCall pred fn (clearEntry pred (runOps pred fn ops) args) args2).2.2 = 1) ∧
    (∀ cache : Cache T, clearAll cache = ([] : Cache T)) ∧
    (∀ args : Args, memoCall pred fn ([] : Cache T) args = (fn args, [(args, fn args)], 1)) := by
  refine ⟨?_, ?_, ?_, fun _ => rfl, fun _ => rfl⟩
  · intro cache args hall
    unfold clearEntry
    have hnone : cache.findIdx? (fun e => pred e.1 args) = none := by
      rw [List.findIdx?_eq_none_iff]
      intro x hx
      simp [hall x hx]
    rw [hnone]
  · intro cache args e hfind
    have hfind' : List.find? (fun x : Args × T => pred x.1 args) cache = some e := hfind
    obtain ⟨l1, l2, hl, hnone⟩ := findScan_decomp (fun x => pred x.1 args) cache e hfind'
    have he : pred e.1 args = true := by
      have h := List.find?_some hfind'
      simpa using h
    refine ⟨l1, l2, hl, hnone, he, ?_⟩
    rw [hl]
    exact clearEntry_of_decomp pred l1 e l2 args hnone he
  · intro ops args args2 hq
    have hno := clearEntry_no_match pred (runOps pred fn ops) args hsymm htrans
      (keysSeparated_runOps pred fn ops hsymm)
    have hall : ∀ e ∈ clearEntry pred (runOps pred fn ops) args,
        pred e.1 args2 = false := by
      intro e he
      by_contra habs
      have hm : pred e.1 args2 = true := Bool.of_not_eq_false habs
      have h2a : pred args2 args = true := by rw [hsymm]; exact hq
      have hea : pred e.1 args = true := htrans e.1 args2 args hm h2a
      rw [hno e he] at hea
      exact Bool.false_ne_true hea
    have hnone : findCacheEntry pred (clearEntry pred (runOps pred fn ops) args) args2 =
        none := by
      unfold findCacheEntry
      rw [List.find?_eq_none]
      intro x hx
      simp [hall x hx]
    unfold memoCall
    rw [hnone]

theorem C8_invalidation_witness :
    clearEntry (fun _ _ => true) ([] : Cache Nat) [JSVal.num (JSNum.int 1)] = [] ∧
    (memoCall (fun _ _ => true) (fun _ => (5 : Nat))
        (clearEntry (fun _ _ => true)
          (runOps (fun _ _ => true) (fun _ => (5 : Nat))
            [MemoOp.call [JSVal.num (JSNum.int 1)]])
          [JSVal.num (JSNum.int 1)])
        [JSVal.num (JSNum.int 1)]).2.2 = 1 := by
  obtain ⟨h1, _h2, h3, _h4, _h5⟩ :=
    @C8_invalidation Nat (fun _ _ => true) (fun _ => (5 : Nat))
      (fun _ _ => rfl) (fun _ _ _ _ _ => rfl)
  exact ⟨h1 [] [JSVal.num (JSNum.int 1)] (by intro e he; simp at he),
         h3 [MemoOp.call [JSVal.num (JSNum.int 1)]]
           [JSVal.num (JSNum.int 1)] [JSVal.num (JSNum.int 1)] rfl⟩

/-! ### Calls that can never hit: `NaN` arguments -/

/-- The argument list `[NaN]`. -/
def nanArgs : Args := [JSVal.num JSNum.nan]

/-- The cache after `n` calls of a memoized function with the single
argument `NaN`, under the default comparison. -/
def callsNaN {T : Type} (fn : Args → T) : Nat → Cache T
  | 0 => []
  | n + 1 => (memoCall (defaultComparison [] 2) fn (callsNaN fn n) nanArgs).2.1

/-- No argument list—stored key—ever matches `[NaN]` under the default
comparison: the element-wise comparison reaches `NaN` on the right and
returns `false` for every left element (including `NaN` itself). -/
lemma defaultComparison_nan (la : Args) :
    defaultComparison [] 2 la nanArgs = false := by
  unfold defaultComparison compareArgsF
  cases la with
  | nil => rfl
  | cons x xs =>
    cases xs with
    | cons y ys => rfl
    | nil =>
      have hx : compareValuesF [] 2 x (JSVal.num JSNum.nan) = some false :=
        compareValuesF_nan_right [] 1 x
      simp [nanArgs, optEvery, hx]

/-- Every call with `[NaN]` is a miss, whatever the cache holds. -/
lemma memoCall_nan_step {T : Type} (fn : Args → T) (c : Cache T) :
    memoCall (defaultComparison [] 2) fn c nanArgs =
      (fn nanArgs, (nanArgs, fn nanArgs) :: c, 1) := by
  have hnone : findCacheEntry (defaultComparison [] 2) c nanArgs = none := by
    unfold findCacheEntry
    rw [List.find?_eq_none]
    intro x hx
    simp [defaultComparison_nan x.1]
  unfold memoCall
  rw [hnone]

/-- C10: since `equals(NaN, NaN)` is false under the default comparator,
a memoized function called repeatedly with the argument list `[NaN]`
never produces a cache hit: the `n+1`-st call again invokes the wrapped
function (invocation count 1) and the cache accumulates one duplicate
entry per call, all with the indistinguishable key `[NaN]`. -/
theorem C10_nan_never_hits {T : Type} (fn : Args → T) (n : Nat) :
    (memoCall (defaultComparison [] 2) fn (callsNaN fn n) nanArgs).2.2 = 1 ∧
    (callsNaN fn n).length = n ∧
    ∀ e ∈ callsNaN fn n, e.1 = nanArgs := by
  refine ⟨by rw [memoCall_nan_step], ?_, ?_⟩
  · induction n with
    | zero => rfl
    | succ k ih =>
      show (memoCall (defaultComparison [] 2) fn (callsNaN fn k) nanArgs).2.1.length = k + 1
      rw [memoCall_nan_step]
      simpa using ih
  · induction n with
    | zero => intro e he; simp [callsNaN] at he
    | succ k ih =>
      intro e he
      rw [show callsNaN fn (k + 1) =
            (memoCall (defaultComparison [] 2) fn (callsNaN fn k) nanArgs).2.1 from rfl,
          memoCall_nan_step] at he
      rcases List.mem_cons.mp he with h1 | h2
      · rw [h1]
      · exact ih e h2
